import Mathlib

/-!
# Verification of `foundation::Tile` (appleseed, `foundation/image/tile.h`)

A shallow embedding of the `Tile` class: a 2D array of pixels stored in a
packed, row-major byte buffer, in a runtime-selected pixel format, with
format-converting structured accessors and bulk operations (`clear`, `copy`).

Byte buffers are modelled as total functions `Nat → Nat` (offset to byte
value); addresses are byte offsets from the start of the pixel array
(`m_pixel_array` is the base, offset `0`).  The external pixel-format
converter (`foundation/image/pixel.h`, an external collaborator of this
component) is modelled abstractly as a per-element pure encoder/decoder,
matching its documented interface: stateless conversion of a count of
elements given pointers and strides.
-/

namespace Appleseed

/-- A byte buffer: total map from byte offset to byte value. -/
def Buf : Type := Nat → Nat

/-- Write the list `bytes` at consecutive offsets `off, off+1, ...` of `buf`
(the semantics of a raw sequential store, e.g. the destination side of
`std::memcpy`). -/
def writeBytes (buf : Buf) (off : Nat) (bytes : List Nat) : Buf :=
  fun p => if off ≤ p ∧ p - off < bytes.length then bytes.getD (p - off) 0 else buf p

/-- Read `len` bytes starting at offset `off`. -/
def readBytes (buf : Buf) (off len : Nat) : List Nat :=
  (List.range len).map (fun k => buf (off + k))

/-- Semantics of `std::memcpy(dst, src, len)` within one buffer: the source bytes are read
first, then stored at the destination (the regions never overlap at the call
sites in `Tile::clear`). -/
def memcpy (buf : Buf) (dst src len : Nat) : Buf :=
  writeBytes buf dst (readBytes buf src len)

/-- Modelled from the spec: `PixelFormat` (declared in the external
collaborator `foundation/image/pixel.h`) is an opaque tag selecting a numeric
encoding; the tile only interprets it through `channel_size(format)`.  The
`tag` field distinguishes formats of equal channel size (e.g. `uint32` vs
`float`). -/
structure PixelFormat where
  tag : Nat
  channelSize : Nat
deriving DecidableEq

/-- Modelled from the spec: the external converter between an external typed
representation `T` and the packed bytes of a pixel format.  It is a stateless
pure function; converting a range of elements with stride 1 converts each
element independently, one `channelSize`-byte group per element. -/
structure PixelConverter (T : Type) where
  encode : PixelFormat → T → List Nat
  decode : PixelFormat → List Nat → T
  encode_length : ∀ pf v, (encode pf v).length = pf.channelSize

/-- Modelled from the spec: the external byte-level conversion routine between
two pixel formats (`convert(src_format, src_ptr, src_count, src_stride,
dst_format, dst_ptr, dst_stride)`), restricted to one channel: it maps the
`src` format's bytes of one channel to the `dst` format's bytes. -/
structure FormatConverter where
  convChannel : PixelFormat → PixelFormat → List Nat → List Nat
  conv_length : ∀ src dst l, (convChannel src dst l).length = dst.channelSize

/-- External `Pixel::convert_to_format` with source stride 1 and destination stride 1:
converts the `values` to `dst_format` and stores the packed bytes
contiguously at offset `dst` of `buf`. -/
def convert_to_format {T : Type} (conv : PixelConverter T) (values : List T)
    (dst_format : PixelFormat) (buf : Buf) (dst : Nat) : Buf :=
  writeBytes buf dst ((values.map (conv.encode dst_format)).flatten)

/-- External `Pixel::convert_from_format` with strides 1: interprets the byte range
`[src, src + len)` of `buf` as consecutive `src_format` channels and decodes
each to an external value. -/
def convert_from_format {T : Type} (conv : PixelConverter T)
    (src_format : PixelFormat) (buf : Buf) (src len : Nat) : List T :=
  (List.range (len / src_format.channelSize)).map
    (fun k => conv.decode src_format
      (readBytes buf (src + k * src_format.channelSize) src_format.channelSize))

/-- The `Tile` data members (`tile.h`, lines 190-199).  All fields except
`m_pixel_array` are declared `const` in the source. -/
structure Tile where
  m_width : Nat
  m_height : Nat
  m_channel_count : Nat
  m_pixel_format : PixelFormat
  m_pixel_count : Nat
  m_channel_size : Nat
  m_pixel_size : Nat
  m_array_size : Nat
  m_pixel_array : Buf
  m_own_storage : Bool

namespace Tile

/-- Modelled from the spec: the fresh-allocation constructor (implemented in
`tile.cpp`, which is not under `src/`).  Given geometry, a format and an
optional caller-supplied storage, it derives `pixel_count = width * height`,
`channel_size = channel_size(pixel_format)`, `pixel_size = channel_count *
channel_size`, `array_size = pixel_count * pixel_size`; it borrows supplied
storage, otherwise allocates owned storage with undefined contents
(modelled by the arbitrary buffer `undef`). -/
def create (width height channel_count : Nat) (pixel_format : PixelFormat)
    (storage : Option Buf) (undef : Buf) : Tile :=
  { m_width := width
    m_height := height
    m_channel_count := channel_count
    m_pixel_format := pixel_format
    m_pixel_count := width * height
    m_channel_size := pixel_format.channelSize
    m_pixel_size := channel_count * pixel_format.channelSize
    m_array_size := (width * height) * (channel_count * pixel_format.channelSize)
    m_pixel_array := storage.getD undef
    m_own_storage := storage.isNone }

/-- The size relations the constructors establish and the source maintains
(every size field is `const`). -/
def WellFormed (t : Tile) : Prop :=
  t.m_pixel_count = t.m_width * t.m_height ∧
  t.m_channel_size = t.m_pixel_format.channelSize ∧
  t.m_pixel_size = t.m_channel_count * t.m_channel_size ∧
  t.m_array_size = t.m_pixel_count * t.m_pixel_size

/-- Two tiles agree on every data member except the pixel array contents. -/
def sameGeometry (a b : Tile) : Prop :=
  a.m_width = b.m_width ∧ a.m_height = b.m_height ∧
  a.m_channel_count = b.m_channel_count ∧ a.m_pixel_format = b.m_pixel_format ∧
  a.m_pixel_count = b.m_pixel_count ∧ a.m_channel_size = b.m_channel_size ∧
  a.m_pixel_size = b.m_pixel_size ∧ a.m_array_size = b.m_array_size ∧
  a.m_own_storage = b.m_own_storage

/-- Accessor `Tile::get_pixel_format`. -/
def get_pixel_format (t : Tile) : PixelFormat := t.m_pixel_format

/-- Accessor `Tile::get_width`. -/
def get_width (t : Tile) : Nat := t.m_width

/-- Accessor `Tile::get_height`. -/
def get_height (t : Tile) : Nat := t.m_height

/-- Accessor `Tile::get_channel_count`. -/
def get_channel_count (t : Tile) : Nat := t.m_channel_count

/-- Accessor `Tile::get_pixel_count`. -/
def get_pixel_count (t : Tile) : Nat := t.m_pixel_count

/-- Accessor `Tile::get_size`: size in bytes of the pixel array. -/
def get_size (t : Tile) : Nat := t.m_array_size

/-- Modelled from the spec: `Tile::get_memory_size` (implemented in
`tile.cpp`, not under `src/`): the fixed header size (`sizeof(Tile)`, an
implementation constant passed here as `headerSize`) plus, only when the tile
owns its storage, the `array_size` bytes of the buffer. -/
def get_memory_size (headerSize : Nat) (t : Tile) : Nat :=
  headerSize + (if t.m_own_storage then t.m_array_size else 0)

/-- Address `Tile::pixel(i)`: byte address (offset from `m_pixel_array`) of pixel `i`,
computed as `i * m_pixel_size`. -/
def pixel (t : Tile) (i : Nat) : Nat := i * t.m_pixel_size

/-- The debug assertions guarding `Tile::pixel(i)`:
`assert(i < m_pixel_count)` and `assert(index < m_array_size)`. -/
def pixelAssert (t : Tile) (i : Nat) : Prop :=
  i < t.m_pixel_count ∧ i * t.m_pixel_size < t.m_array_size

/-- Address `Tile::pixel(x, y)`: forwards to `pixel(y * m_width + x)`. -/
def pixelXY (t : Tile) (x y : Nat) : Nat := t.pixel (y * t.m_width + x)

/-- The debug assertions guarding `Tile::pixel(x, y)`:
`assert(x < m_width)`, `assert(y < m_height)`, plus those of `pixel(i)`. -/
def pixelXYAssert (t : Tile) (x y : Nat) : Prop :=
  x < t.m_width ∧ y < t.m_height ∧ t.pixelAssert (y * t.m_width + x)

/-- Address `Tile::component(i, c)`: `pixel(i) + c * m_channel_size`. -/
def component (t : Tile) (i c : Nat) : Nat := t.pixel i + c * t.m_channel_size

/-- The debug assertions reached by `Tile::component(i, c)`: only those of
`pixel(i)` — the source contains no check on `c`. -/
def componentAssert (t : Tile) (i c : Nat) : Prop := t.pixelAssert i

/-- Address `Tile::component(x, y, c)`: `pixel(x, y) + c * m_channel_size`. -/
def componentXY (t : Tile) (x y c : Nat) : Nat :=
  t.pixelXY x y + c * t.m_channel_size

/-- Writer `Tile::set_pixel(i, components)` (array overload): converts the source
range `[components, components + m_channel_count)` with stride 1 to
`m_pixel_format`, storing at `pixel(i)` with stride 1.  Reading exactly
`m_channel_count` elements from the caller's array is modelled by
`components.take m_channel_count`. -/
def set_pixel {T : Type} (conv : PixelConverter T) (t : Tile) (i : Nat)
    (components : List T) : Tile :=
  let buf := convert_to_format conv (components.take t.m_channel_count)
    t.m_pixel_format t.m_pixel_array (t.pixel i)
  { t with m_pixel_array := buf }

/-- Writer `Tile::set_pixel(x, y, components)`: forwards to
`set_pixel(y * m_width + x, components)`. -/
def set_pixelXY {T : Type} (conv : PixelConverter T) (t : Tile) (x y : Nat)
    (components : List T) : Tile :=
  t.set_pixel conv (y * t.m_width + x) components

/-- Writer `Tile::set_component(i, c, value)`: converts the single-element source
range `[&value, &value + 1)` to `m_pixel_format`, storing at
`component(i, c)`. -/
def set_component {T : Type} (conv : PixelConverter T) (t : Tile) (i c : Nat)
    (value : T) : Tile :=
  let buf := convert_to_format conv [value] t.m_pixel_format t.m_pixel_array
    (t.component i c)
  { t with m_pixel_array := buf }

/-- Writer `Tile::set_component(x, y, c, value)`: forwards to
`set_component(y * m_width + x, c, value)`. -/
def set_componentXY {T : Type} (conv : PixelConverter T) (t : Tile)
    (x y c : Nat) (value : T) : Tile :=
  t.set_component conv (y * t.m_width + x) c value

/-- Reader `Tile::get_pixel(i, components)` (array overload): decodes the source
byte range `[pixel(i), pixel(i) + m_pixel_size)` with stride 1 into external
values. -/
def get_pixel {T : Type} (conv : PixelConverter T) (t : Tile) (i : Nat) :
    List T :=
  convert_from_format conv t.m_pixel_format t.m_pixel_array (t.pixel i)
    t.m_pixel_size

/-- Reader `Tile::get_pixel(x, y, components)`: forwards to
`get_pixel(y * m_width + x, components)`. -/
def get_pixelXY {T : Type} (conv : PixelConverter T) (t : Tile) (x y : Nat) :
    List T :=
  t.get_pixel conv (y * t.m_width + x)

/-- Reader `Tile::get_component(i, c)`: decodes the byte range
`[component(i, c), component(i, c) + m_channel_size)`; the local `T value`
the converter writes into is uninitialized, modelled by `default` when the
range decodes to no element. -/
def get_component {T : Type} [Inhabited T] (conv : PixelConverter T)
    (t : Tile) (i c : Nat) : T :=
  (convert_from_format conv t.m_pixel_format t.m_pixel_array
    (t.component i c) t.m_channel_size).headD default

/-- Reader `Tile::get_component(x, y, c)`: forwards to
`get_component(y * m_width + x, c)`. -/
def get_componentXY {T : Type} [Inhabited T] (conv : PixelConverter T)
    (t : Tile) (x y c : Nat) : T :=
  t.get_component conv (y * t.m_width + x) c

/-- Bulk `Tile::clear(color)`: one conversion of the `m_channel_count` external
values of `color` into pixel `(0, 0)`; then `memcpy` of that pixel's
`m_pixel_size` bytes into each remaining pixel of row 0 (destinations
`base + i * m_pixel_size`, `i = 1 .. m_width - 1`); then `memcpy` of row 0's
`m_width * m_pixel_size` bytes into each remaining row (destinations
`base + i * row_size`, `i = 1 .. m_height - 1`). -/
def clearBuf {T : Type} (conv : PixelConverter T) (t : Tile) (color : List T) :
    Buf :=
  (List.range' 1 (t.m_height - 1)).foldl
    (fun b i => memcpy b (t.pixelXY 0 0 + i * (t.m_width * t.m_pixel_size))
      (t.pixelXY 0 0) (t.m_width * t.m_pixel_size))
    ((List.range' 1 (t.m_width - 1)).foldl
      (fun b i => memcpy b (t.pixelXY 0 0 + i * t.m_pixel_size)
        (t.pixelXY 0 0) t.m_pixel_size)
      (convert_to_format conv (color.take t.m_channel_count)
        t.m_pixel_format t.m_pixel_array (t.pixelXY 0 0)))

/-- Bulk `Tile::clear(color)`, assembled from `clearBuf`: the tile with the
pixel array replaced by the result of the three steps. -/
def clear {T : Type} (conv : PixelConverter T) (t : Tile) (color : List T) :
    Tile :=
  { t with m_pixel_array := clearBuf conv t color }

/-- The naive reference clear: `set_pixel(i, color)` for every
`i ∈ [0, pixel_count)`.  This is the specification `clear` is an optimization
of. -/
def clear_naive {T : Type} (conv : PixelConverter T) (t : Tile)
    (color : List T) : Tile :=
  (List.range t.m_pixel_count).foldl (fun tt i => tt.set_pixel conv i color) t

/-- Modelled from the spec: `Tile::copy(rhs)` (implemented in `tile.cpp`, not
under `src/`).  Precondition: same `width`, `height` and `channel_count`.
When the pixel formats are equal, a raw byte copy of `array_size` bytes from
`rhs`'s buffer; when they differ, every channel of every pixel is converted
individually from `rhs.m_pixel_format` to `m_pixel_format`. -/
def copy (fc : FormatConverter) (t rhs : Tile) : Tile :=
  if t.m_pixel_format = rhs.m_pixel_format then
    let buf := writeBytes t.m_pixel_array 0
      (readBytes rhs.m_pixel_array 0 t.m_array_size)
    { t with m_pixel_array := buf }
  else
    let buf := (List.range t.m_pixel_count).foldl
      (fun b i => writeBytes b (i * t.m_pixel_size)
        (((List.range t.m_channel_count).map
          (fun c => fc.convChannel rhs.m_pixel_format t.m_pixel_format
            (readBytes rhs.m_pixel_array
              (i * rhs.m_pixel_size + c * rhs.m_channel_size)
              rhs.m_channel_size))).flatten))
      t.m_pixel_array
    { t with m_pixel_array := buf }

/-- Modelled from the spec: the effect of `Tile::~Tile` / `Tile::release`
(implemented in `tile.cpp`, not under `src/`): owned storage is deallocated,
borrowed storage is left untouched. -/
structure DestroyEffect where
  freed_pixel_array : Bool
  surviving : Option Buf

/-- Modelled from the spec: destruction frees the pixel array iff the tile
owns its storage; it performs no other action, so a borrowed buffer survives
destruction with its contents untouched (`surviving`), while an owned buffer
is gone. -/
def destroy (t : Tile) : DestroyEffect :=
  { freed_pixel_array := t.m_own_storage
    surviving := if t.m_own_storage then none else some t.m_pixel_array }

end Tile

/-- A fixed-size aggregate "color" type: `channel_count` indexable elements
of one external type.  `&color[0]` exposes the elements as a contiguous
array, modelled by the `elems` list. -/
structure ColorAgg (T : Type) where
  elems : List T

/-- Byte size `sizeof(Color)` for a plain aggregate of `elems.length` elements each of
`elemSize` bytes. -/
def sizeofColor {T : Type} (elemSize : Nat) (c : ColorAgg T) : Nat :=
  c.elems.length * elemSize

namespace Tile

/-- The debug assertion of the aggregate overloads:
`assert(sizeof(Color) == m_channel_count * sizeof(color[0]))`. -/
def colorSizeAssert {T : Type} (t : Tile) (elemSize : Nat)
    (c : ColorAgg T) : Prop :=
  sizeofColor elemSize c = t.m_channel_count * elemSize

/-- Writer `Tile::set_pixel(i, color)` (aggregate overload): forwards to the array
overload on `&color[0]`. -/
def set_pixel_color {T : Type} (conv : PixelConverter T) (t : Tile) (i : Nat)
    (c : ColorAgg T) : Tile :=
  t.set_pixel conv i c.elems

/-- Reader `Tile::get_pixel(i, color)` (aggregate overload): forwards to the array
overload on `&color[0]`, filling the aggregate's elements. -/
def get_pixel_color {T : Type} (conv : PixelConverter T) (t : Tile)
    (i : Nat) : ColorAgg T :=
  ⟨t.get_pixel conv i⟩

/-- Bulk `Tile::clear(color)` applied to an aggregate: the body reads
`&color[0] .. &color[0] + m_channel_count`. -/
def clear_color {T : Type} (conv : PixelConverter T) (t : Tile)
    (c : ColorAgg T) : Tile :=
  t.clear conv c.elems

end Tile

/-- One mutating tile operation, for lifetime statements quantifying over
arbitrary operation sequences. -/
inductive TileOp (T : Type) where
  | setPixelOp (i : Nat) (components : List T)
  | setPixelXYOp (x y : Nat) (components : List T)
  | setComponentOp (i c : Nat) (value : T)
  | setComponentXYOp (x y c : Nat) (value : T)
  | clearOp (color : List T)
  | copyOp (rhs : Tile)

namespace Tile

/-- Apply one mutating operation. -/
def applyOp {T : Type} (conv : PixelConverter T) (fc : FormatConverter)
    (t : Tile) : TileOp T → Tile
  | .setPixelOp i comps => t.set_pixel conv i comps
  | .setPixelXYOp x y comps => t.set_pixelXY conv x y comps
  | .setComponentOp i c v => t.set_component conv i c v
  | .setComponentXYOp x y c v => t.set_componentXY conv x y c v
  | .clearOp color => t.clear conv color
  | .copyOp rhs => t.copy fc rhs

/-- Apply a sequence of mutating operations, in order. -/
def applyOps {T : Type} (conv : PixelConverter T) (fc : FormatConverter)
    (t : Tile) (ops : List (TileOp T)) : Tile :=
  ops.foldl (applyOp conv fc) t

end Tile

/-- A concrete pixel format for test evaluations: 1 byte per channel. -/
def pf8 : PixelFormat := ⟨0, 1⟩

/-- A concrete pixel format for test evaluations: 4 bytes per channel,
distinct from `pf8`. -/
def pf32 : PixelFormat := ⟨1, 4⟩

/-- A concrete converter for test evaluations: little-endian base-256
encoding of a natural number into `channelSize` bytes. -/
def natConv : PixelConverter Nat where
  encode := fun pf v => (List.range pf.channelSize).map (fun k => v / 256 ^ k % 256)
  decode := fun _ l => l.foldr (fun b acc => b % 256 + 256 * acc) 0
  encode_length := fun pf v => by simp

/-- A concrete format-to-format converter for test evaluations: truncate or
zero-pad the channel bytes to the destination width. -/
def natFC : FormatConverter where
  convChannel := fun src dst l => (List.range dst.channelSize).map (fun k => l.getD k 0)
  conv_length := fun src dst l => by simp

/-- An all-zero buffer, used as concrete storage in test evaluations. -/
def zeroBuf : Buf := fun _ => 0

/-- A concrete owning tile for test evaluations: 2 x 3 pixels, 3 channels,
1 byte per channel. -/
def t23 : Tile := Tile.create 2 3 3 pf8 none zeroBuf

/-- A concrete borrowing tile for test evaluations: same geometry as `t23`,
caller-supplied storage. -/
def t23b : Tile := Tile.create 2 3 3 pf8 (some zeroBuf) zeroBuf

/-- A concrete tile of the same geometry as `t23` but a different pixel
format, source of a converting `copy` in test evaluations. -/
def s23 : Tile := Tile.create 2 3 3 pf32 none zeroBuf

end Appleseed

namespace Appleseed

/-!
## General lemmas about byte buffers

Pointwise characterizations of `writeBytes`, `readBytes`, `memcpy`, of
flattened uniform-length chunk lists, and of the two strided-write loop
shapes used by `Tile::clear`, the naive per-pixel loop and the converting
`copy`.
-/

theorem readBytes_length (buf : Buf) (off len : Nat) :
    (readBytes buf off len).length = len := by
  simp [readBytes]

theorem readBytes_getD (buf : Buf) (off len k : Nat) (h : k < len) :
    (readBytes buf off len).getD k 0 = buf (off + k) := by
  rw [List.getD_eq_getElem _ _ (by simpa [readBytes] using h)]
  simp [readBytes]

theorem writeBytes_in (buf : Buf) (off : Nat) (l : List Nat) (p : Nat)
    (h1 : off ≤ p) (h2 : p - off < l.length) :
    writeBytes buf off l p = l.getD (p - off) 0 := by
  simp [writeBytes, h1, h2]

theorem writeBytes_out (buf : Buf) (off : Nat) (l : List Nat) (p : Nat)
    (h : ¬(off ≤ p ∧ p - off < l.length)) :
    writeBytes buf off l p = buf p := by
  simp only [writeBytes, if_neg h]

theorem readBytes_writeBytes_self (buf : Buf) (off len : Nat) (l : List Nat)
    (h : l.length = len) :
    readBytes (writeBytes buf off l) off len = l := by
  apply List.ext_getElem
  · simp [readBytes, h]
  · intro k h1 h2
    simp only [readBytes, List.getElem_map, List.getElem_range]
    rw [writeBytes_in buf off l (off + k) (Nat.le_add_right _ _)
      (by simpa [h] using (by simpa [readBytes] using h1 : k < len))]
    rw [List.getD_eq_getElem _ _ (by simp [h]; simpa [readBytes] using h1)]
    congr 1
    omega

theorem memcpy_apply (buf : Buf) (dst src len p : Nat) :
    memcpy buf dst src len p =
      if dst ≤ p ∧ p - dst < len then buf (src + (p - dst)) else buf p := by
  by_cases h : dst ≤ p ∧ p - dst < len
  · rw [if_pos h]
    unfold memcpy
    rw [writeBytes_in _ _ _ _ h.1 (by simpa [readBytes_length] using h.2)]
    exact readBytes_getD buf src len (p - dst) h.2
  · rw [if_neg h]
    unfold memcpy
    exact writeBytes_out _ _ _ _ (by simpa [readBytes_length] using h)

theorem range_map_getD (l : List Nat) (n : Nat) (h : l.length = n) :
    (List.range n).map (fun k => l.getD k 0) = l := by
  apply List.ext_getElem
  · simp [h]
  · intro k h1 h2
    simp only [List.getElem_map, List.getElem_range]
    exact List.getD_eq_getElem l 0 h2

theorem flatten_uniform_length (ls : List (List Nat)) (cs : Nat)
    (h : ∀ a ∈ ls, a.length = cs) : ls.flatten.length = ls.length * cs := by
  induction ls with
  | nil => simp
  | cons a rest ih =>
    simp only [List.flatten_cons, List.length_append, List.length_cons]
    rw [h a (by simp), ih (fun b hb => h b (by simp [hb]))]
    ring

theorem flatten_uniform_getD (ls : List (List Nat)) (cs : Nat)
    (h : ∀ a ∈ ls, a.length = cs) (k j : Nat) (hk : k < ls.length)
    (hj : j < cs) :
    ls.flatten.getD (k * cs + j) 0 = (ls.getD k []).getD j 0 := by
  induction ls generalizing k with
  | nil => simp at hk
  | cons a rest ih =>
    cases k with
    | zero =>
      simp only [List.flatten_cons, Nat.zero_mul, Nat.zero_add, List.getD_cons_zero]
      exact List.getD_append a rest.flatten 0 j (by rw [h a (by simp)]; exact hj)
    | succ k =>
      simp only [List.flatten_cons, List.getD_cons_succ]
      rw [List.getD_append_right _ _ _ _ (by rw [h a (by simp)]; nlinarith)]
      rw [h a (by simp)]
      have : (k + 1) * cs + j - cs = k * cs + j := by ring_nf; omega
      rw [this]
      exact ih (fun b hb => h b (by simp [hb])) k (by simpa using hk)

theorem foldl_writeBytes_stride (g : Nat → List Nat) (L : Nat)
    (hg : ∀ i, (g i).length = L) :
    ∀ (n : Nat) (buf : Buf) (p : Nat),
      ((List.range n).foldl (fun b i => writeBytes b (i * L) (g i)) buf) p =
        if p < n * L then (g (p / L)).getD (p % L) 0 else buf p := by
  intro n
  induction n with
  | zero => intro buf p; simp
  | succ n ih =>
    intro buf p
    rw [List.range_succ, List.foldl_append, List.foldl_cons, List.foldl_nil]
    rw [Nat.succ_mul]
    by_cases h : n * L ≤ p ∧ p - n * L < L
    · rw [writeBytes_in _ _ _ _ h.1 (by rw [hg]; exact h.2)]
      have hdiv : p / L = n := by
        apply Nat.div_eq_of_lt_le h.1
        rw [Nat.add_mul, Nat.one_mul]
        omega
      have hmod : p % L = p - n * L := by
        have hp : p = L * n + (p - n * L) := by rw [Nat.mul_comm]; omega
        conv_lhs => rw [hp]
        rw [Nat.mul_add_mod]
        exact Nat.mod_eq_of_lt h.2
      rw [if_pos (by omega), hdiv, hmod]
    · rw [writeBytes_out _ _ _ _ (by rw [hg]; exact h)]
      rw [ih buf p]
      by_cases h2 : p < n * L
      · rw [if_pos h2, if_pos (by omega)]
      · rw [if_neg h2, if_neg (by omega)]

theorem foldl_memcpy_stride (L : Nat) :
    ∀ (n : Nat) (buf : Buf) (p : Nat),
      ((List.range' 1 n).foldl (fun b i => memcpy b (i * L) 0 L) buf) p =
        if p < (n + 1) * L then buf (p % L) else buf p := by
  intro n
  induction n with
  | zero =>
    intro buf p
    simp only [List.range'_zero, List.foldl_nil]
    by_cases h : p < 1 * L
    · rw [if_pos h, Nat.mod_eq_of_lt (by omega)]
    · rw [if_neg h]
  | succ n ih =>
    intro buf p
    rw [List.range'_1_concat, List.foldl_append, List.foldl_cons, List.foldl_nil]
    rw [memcpy_apply]
    have hm1 : (1 + n) * L = n * L + L := by rw [Nat.add_mul]; omega
    have hm2 : (n + 1) * L = n * L + L := by rw [Nat.add_mul]; omega
    have hm3 : (n + 1 + 1) * L = n * L + L + L := by rw [Nat.add_mul, Nat.add_mul]; omega
    rw [hm1, hm3]
    by_cases h : n * L + L ≤ p ∧ p - (n * L + L) < L
    · rw [if_pos h, Nat.zero_add, ih, hm2]
      rw [if_pos (by omega)]
      have hmodeq : (p - (n * L + L)) % L = p % L := by
        have hp : p = (p - (n * L + L)) + (n + 1) * L := by rw [hm2]; omega
        conv_rhs => rw [hp]
        rw [Nat.add_mul_mod_self_right]
      rw [hmodeq, if_pos (by omega)]
    · rw [if_neg h, ih, hm2]
      by_cases h2 : p < n * L + L
      · rw [if_pos h2, if_pos (by omega)]
      · rw [if_neg h2, if_neg (by omega)]

end Appleseed

namespace Appleseed

namespace Tile

/-!
## Tile-level helper lemmas
-/

theorem sameGeometry_trans {a b c : Tile} (h1 : sameGeometry a b)
    (h2 : sameGeometry b c) : sameGeometry a c := by
  obtain ⟨a1, a2, a3, a4, a5, a6, a7, a8, a9⟩ := h1
  obtain ⟨b1, b2, b3, b4, b5, b6, b7, b8, b9⟩ := h2
  exact ⟨a1.trans b1, a2.trans b2, a3.trans b3, a4.trans b4, a5.trans b5,
    a6.trans b6, a7.trans b7, a8.trans b8, a9.trans b9⟩

theorem set_pixel_geom {T : Type} (conv : PixelConverter T) (t : Tile)
    (i : Nat) (comps : List T) : sameGeometry (t.set_pixel conv i comps) t :=
  ⟨rfl, rfl, rfl, rfl, rfl, rfl, rfl, rfl, rfl⟩

theorem set_component_geom {T : Type} (conv : PixelConverter T) (t : Tile)
    (i c : Nat) (v : T) : sameGeometry (t.set_component conv i c v) t :=
  ⟨rfl, rfl, rfl, rfl, rfl, rfl, rfl, rfl, rfl⟩

theorem clear_geom {T : Type} (conv : PixelConverter T) (t : Tile)
    (color : List T) : sameGeometry (t.clear conv color) t :=
  ⟨rfl, rfl, rfl, rfl, rfl, rfl, rfl, rfl, rfl⟩

theorem copy_geom (fc : FormatConverter) (t rhs : Tile) :
    sameGeometry (t.copy fc rhs) t := by
  unfold copy
  split
  · exact ⟨rfl, rfl, rfl, rfl, rfl, rfl, rfl, rfl, rfl⟩
  · exact ⟨rfl, rfl, rfl, rfl, rfl, rfl, rfl, rfl, rfl⟩

theorem applyOp_geom {T : Type} (conv : PixelConverter T)
    (fc : FormatConverter) (t : Tile) (op : TileOp T) :
    sameGeometry (t.applyOp conv fc op) t := by
  cases op with
  | setPixelOp i comps => exact set_pixel_geom conv t i comps
  | setPixelXYOp x y comps => exact set_pixel_geom conv t _ comps
  | setComponentOp i c v => exact set_component_geom conv t i c v
  | setComponentXYOp x y c v => exact set_component_geom conv t _ c v
  | clearOp color => exact clear_geom conv t color
  | copyOp rhs => exact copy_geom fc t rhs

theorem applyOps_geom {T : Type} (conv : PixelConverter T)
    (fc : FormatConverter) (ops : List (TileOp T)) :
    ∀ t : Tile, sameGeometry (t.applyOps conv fc ops) t := by
  induction ops with
  | nil =>
    intro t
    exact ⟨rfl, rfl, rfl, rfl, rfl, rfl, rfl, rfl, rfl⟩
  | cons op rest ih =>
    intro t
    exact sameGeometry_trans (ih (t.applyOp conv fc op))
      (applyOp_geom conv fc t op)

/-- Length of the packed encoding of one pixel's worth of external values. -/
theorem enc_uniform {T : Type} (conv : PixelConverter T) (t : Tile)
    (color : List T) (h2 : t.m_channel_size = t.m_pixel_format.channelSize) :
    ∀ a ∈ (color.take t.m_channel_count).map (conv.encode t.m_pixel_format),
      a.length = t.m_channel_size := by
  intro a ha
  simp only [List.mem_map] at ha
  obtain ⟨v, hv, rfl⟩ := ha
  rw [conv.encode_length, h2]

theorem enc_length {T : Type} (conv : PixelConverter T) (t : Tile)
    (color : List T) (h2 : t.m_channel_size = t.m_pixel_format.channelSize)
    (h3 : t.m_pixel_size = t.m_channel_count * t.m_channel_size)
    (hc : t.m_channel_count ≤ color.length) :
    (((color.take t.m_channel_count).map
      (conv.encode t.m_pixel_format)).flatten).length = t.m_pixel_size := by
  rw [flatten_uniform_length _ _ (enc_uniform conv t color h2),
    List.length_map, List.length_take, Nat.min_eq_left hc]
  exact h3.symm

/-- The naive per-pixel loop only rewrites the buffer: it equals a fold of
strided raw writes over the original tile's buffer, and preserves the
geometry. -/
theorem foldl_set_pixel_eq {T : Type} (conv : PixelConverter T)
    (color : List T) :
    ∀ (l : List Nat) (t : Tile),
      (l.foldl (fun tt i => tt.set_pixel conv i color) t).m_pixel_array =
        l.foldl
          (fun b i => writeBytes b (i * t.m_pixel_size)
            (((color.take t.m_channel_count).map
              (conv.encode t.m_pixel_format)).flatten))
          t.m_pixel_array ∧
      sameGeometry (l.foldl (fun tt i => tt.set_pixel conv i color) t) t := by
  intro l
  induction l with
  | nil =>
    intro t
    exact ⟨rfl, rfl, rfl, rfl, rfl, rfl, rfl, rfl, rfl, rfl⟩
  | cons a rest ih =>
    intro t
    rw [List.foldl_cons, List.foldl_cons]
    refine ⟨(ih (t.set_pixel conv a color)).1, sameGeometry_trans
      ((ih (t.set_pixel conv a color)).2) (set_pixel_geom conv t a color)⟩

/-- Pointwise contents of the buffer after the naive per-pixel clear. -/
theorem clear_naive_buf {T : Type} (conv : PixelConverter T) (t : Tile)
    (color : List T) (hwf : t.WellFormed)
    (hc : t.m_channel_count ≤ color.length) (p : Nat) :
    (t.clear_naive conv color).m_pixel_array p =
      if p < t.m_array_size
      then (((color.take t.m_channel_count).map
        (conv.encode t.m_pixel_format)).flatten).getD (p % t.m_pixel_size) 0
      else t.m_pixel_array p := by
  obtain ⟨h1, h2, h3, h4⟩ := hwf
  unfold clear_naive
  rw [(foldl_set_pixel_eq conv color (List.range t.m_pixel_count) t).1]
  rw [foldl_writeBytes_stride _ t.m_pixel_size
    (fun i => enc_length conv t color h2 h3 hc) t.m_pixel_count
    t.m_pixel_array p]
  rw [h4]

/-- Pointwise contents of the buffer after the optimized `Tile::clear`. -/
theorem clear_buf_eq {T : Type} (conv : PixelConverter T) (t : Tile)
    (color : List T) (hwf : t.WellFormed) (hw : 0 < t.m_width)
    (hh : 0 < t.m_height) (hc : t.m_channel_count ≤ color.length) (p : Nat) :
    (t.clear conv color).m_pixel_array p =
      if p < t.m_array_size
      then (((color.take t.m_channel_count).map
        (conv.encode t.m_pixel_format)).flatten).getD (p % t.m_pixel_size) 0
      else t.m_pixel_array p := by
  obtain ⟨h1, h2, h3, h4⟩ := hwf
  have hbase : t.pixelXY 0 0 = 0 := by simp [pixelXY, pixel]
  have henc := enc_length conv t color h2 h3 hc
  show clearBuf conv t color p = _
  unfold clearBuf
  simp only [hbase, Nat.zero_add, convert_to_format]
  simp only [foldl_memcpy_stride]
  have hh1 : t.m_height - 1 + 1 = t.m_height := by omega
  have hw1 : t.m_width - 1 + 1 = t.m_width := by omega
  rw [hh1, hw1]
  have has : t.m_array_size = t.m_height * (t.m_width * t.m_pixel_size) := by
    rw [h4, h1]; ring
  by_cases hp : p < t.m_array_size
  · rw [if_pos (show p < t.m_height * (t.m_width * t.m_pixel_size) from has ▸ hp),
      if_pos hp]
    have hwps : 0 < t.m_width * t.m_pixel_size := by
      rcases Nat.eq_zero_or_pos (t.m_width * t.m_pixel_size) with h0 | h0
      · rw [has, h0, Nat.mul_zero] at hp; omega
      · exact h0
    have hps : 0 < t.m_pixel_size := by
      rcases Nat.eq_zero_or_pos t.m_pixel_size with h0 | h0
      · rw [h0, Nat.mul_zero] at hwps; omega
      · exact h0
    rw [if_pos (Nat.mod_lt p hwps)]
    rw [Nat.mod_mod_of_dvd p ⟨t.m_width, Nat.mul_comm _ _⟩]
    rw [writeBytes_in _ _ _ _ (Nat.zero_le _)
      (by rw [henc]; simpa using Nat.mod_lt p hps)]
    simp
  · rw [if_neg (show ¬ p < t.m_height * (t.m_width * t.m_pixel_size) from
      has ▸ hp), if_neg hp]
    have h5 : t.m_width * t.m_pixel_size ≤ p := by
      have h6 : t.m_width * t.m_pixel_size ≤
          t.m_height * (t.m_width * t.m_pixel_size) :=
        Nat.le_mul_of_pos_left _ hh
      rw [has] at hp
      omega
    rw [if_neg (by omega)]
    rw [writeBytes_out]
    rw [henc]
    have h7 : t.m_pixel_size ≤ t.m_width * t.m_pixel_size :=
      Nat.le_mul_of_pos_left _ hw
    omega

/-- Reading any pixel back after the optimized clear yields the element-wise
decode of the element-wise encode of the color. -/
theorem clear_get_pixel {T : Type} (conv : PixelConverter T) (t : Tile)
    (color : List T) (hwf : t.WellFormed) (hw : 0 < t.m_width)
    (hh : 0 < t.m_height) (hcs : 0 < t.m_channel_size)
    (hc : color.length = t.m_channel_count) (i : Nat)
    (hi : i < t.m_pixel_count) :
    (t.clear conv color).get_pixel conv i =
      color.map (fun v => conv.decode t.m_pixel_format
        (conv.encode t.m_pixel_format v)) := by
  obtain ⟨h1, h2, h3, h4⟩ := hwf
  have htake : color.take t.m_channel_count = color := by
    rw [← hc]; exact List.take_length color
  have hcount :
      t.m_pixel_size / t.m_pixel_format.channelSize = t.m_channel_count := by
    rw [← h2, h3]
    exact Nat.mul_div_cancel _ hcs
  show convert_from_format conv t.m_pixel_format
    ((t.clear conv color).m_pixel_array) (i * t.m_pixel_size)
    t.m_pixel_size = _
  unfold convert_from_format
  rw [hcount]
  apply List.ext_getElem
  · simp [hc]
  · intro k hk1 hk2
    simp only [List.getElem_map, List.getElem_range]
    have hk : k < t.m_channel_count := by simpa using hk1
    congr 1
    apply List.ext_getElem
    · simp only [readBytes, List.length_map, List.length_range,
        conv.encode_length]
    · intro j hj1 hj2
      have hj : j < t.m_pixel_format.channelSize := by
        simpa [readBytes] using hj1
      simp only [readBytes, List.getElem_map, List.getElem_range]
      rw [clear_buf_eq conv t color ⟨h1, h2, h3, h4⟩ hw hh
        (le_of_eq hc.symm) _]
      simp only [← h2]
      have hj' : j < t.m_channel_size := h2 ▸ hj
      have hmlt : k * t.m_channel_size + j < t.m_pixel_size := by
        have hstep : (k + 1) * t.m_channel_size ≤
            t.m_channel_count * t.m_channel_size :=
          Nat.mul_le_mul_right _ (by omega)
        rw [Nat.add_mul, Nat.one_mul] at hstep
        rw [h3]
        omega
      have hofflt :
          i * t.m_pixel_size + (k * t.m_channel_size + j) < t.m_array_size := by
        have hstep : (i + 1) * t.m_pixel_size ≤
            t.m_pixel_count * t.m_pixel_size :=
          Nat.mul_le_mul_right _ (by omega)
        rw [Nat.add_mul, Nat.one_mul] at hstep
        rw [h4]
        omega
      rw [if_pos (by omega :
        i * t.m_pixel_size + k * t.m_channel_size + j < t.m_array_size)]
      have hmod : (i * t.m_pixel_size + k * t.m_channel_size + j) %
          t.m_pixel_size = k * t.m_channel_size + j := by
        rw [Nat.add_assoc, Nat.add_comm (i * t.m_pixel_size),
          Nat.add_mul_mod_self_right]
        exact Nat.mod_eq_of_lt hmlt
      rw [hmod, htake]
      rw [flatten_uniform_getD (color.map (conv.encode t.m_pixel_format))
        t.m_channel_size (by
          intro a ha
          simp only [List.mem_map] at ha
          obtain ⟨v, hv, rfl⟩ := ha
          rw [conv.encode_length]
          exact h2.symm) k j (by simpa [hc] using hk) hj']
      have hklen : k < (color.map (conv.encode t.m_pixel_format)).length := by
        simp only [List.length_map]
        omega
      rw [List.getD_eq_getElem _ _ hklen]
      simp only [List.getElem_map]
      exact List.getD_eq_getElem _ _
        (by rw [conv.encode_length, ← h2]; exact hj')

end Tile

/-!
## Claim theorems
-/

/-- C1: for every tile with positive width and height and every color
aggregate of `channel_count` elements, the optimized `clear` (one conversion
into pixel `(0,0)`, byte-replication across row 0, byte-replication of row 0
across the remaining rows) produces buffer contents byte-identical to the
naive per-pixel `set_pixel` loop, and `get_pixel(i)` afterwards equals the
converted value of the color for every `i < pixel_count`. -/
theorem C1_clear_refines_naive {T : Type} (conv : PixelConverter T)
    (t : Tile) (color : List T) (hwf : t.WellFormed) (hw : 0 < t.m_width)
    (hh : 0 < t.m_height) (hcs : 0 < t.m_channel_size)
    (hc : color.length = t.m_channel_count) :
    (t.clear conv color).m_pixel_array =
      (t.clear_naive conv color).m_pixel_array ∧
    ∀ i, i < t.m_pixel_count →
      (t.clear conv color).get_pixel conv i =
        color.map (fun v => conv.decode t.m_pixel_format
          (conv.encode t.m_pixel_format v)) := by
  constructor
  · funext p
    rw [Tile.clear_buf_eq conv t color hwf hw hh (le_of_eq hc.symm) p,
      Tile.clear_naive_buf conv t color hwf (le_of_eq hc.symm) p]
  · intro i hi
    exact Tile.clear_get_pixel conv t color hwf hw hh hcs hc i hi

/-- Witness for C1 at a concrete 2 x 3 tile with 3 one-byte channels and the
color `(10, 20, 30)`. -/
theorem C1_clear_refines_naive_witness :
    (t23.WellFormed ∧ 0 < t23.m_width ∧ 0 < t23.m_height ∧
      0 < t23.m_channel_size ∧
      ([10, 20, 30] : List Nat).length = t23.m_channel_count) ∧
    ((t23.clear natConv [10, 20, 30]).m_pixel_array =
        (t23.clear_naive natConv [10, 20, 30]).m_pixel_array ∧
      ∀ i, i < t23.m_pixel_count →
        (t23.clear natConv [10, 20, 30]).get_pixel natConv i =
          ([10, 20, 30] : List Nat).map (fun v =>
            natConv.decode t23.m_pixel_format
              (natConv.encode t23.m_pixel_format v))) :=
  ⟨⟨⟨rfl, rfl, rfl, rfl⟩, by decide, by decide, by decide, rfl⟩,
    C1_clear_refines_naive natConv t23 [10, 20, 30] ⟨rfl, rfl, rfl, rfl⟩
      (by decide) (by decide) (by decide) rfl⟩

/-- C2: construction establishes `pixel_size = channel_count * channel_size`
and `array_size = pixel_count * pixel_size = width * height * channel_count *
channel_size`, `get_size()` returns exactly `array_size`, and no operation
after construction changes width, height, channel count, pixel format, or
any derived size (nor the ownership flag). -/
theorem C2_size_invariants {T : Type} (conv : PixelConverter T)
    (fc : FormatConverter) (w h cc : Nat) (pf : PixelFormat)
    (storage : Option Buf) (undef : Buf) (t : Tile) (ops : List (TileOp T)) :
    (Tile.create w h cc pf storage undef).WellFormed ∧
    (Tile.create w h cc pf storage undef).m_array_size =
      w * h * cc * pf.channelSize ∧
    (Tile.create w h cc pf storage undef).get_size =
      (Tile.create w h cc pf storage undef).m_array_size ∧
    Tile.sameGeometry (t.applyOps conv fc ops) t :=
  ⟨⟨rfl, rfl, rfl, rfl⟩, (Nat.mul_assoc (w * h) cc pf.channelSize).symm,
    rfl, Tile.applyOps_geom conv fc ops t⟩

/-- C3: `pixel(i)` returns the storage base (offset `0`) plus
`i * pixel_size`; `pixel(x, y)` equals `pixel(y * width + x)`; `component`
adds exactly `c * channel_size` to the pixel's address; and the debug
assertion reached by `component` places no bound on `c` (it is exactly the
assertion of `pixel(i)`, for every `c`). -/
theorem C3_addressing (t : Tile) (i x y c c' : Nat) :
    t.pixel i = 0 + i * t.m_pixel_size ∧
    t.pixelXY x y = t.pixel (y * t.m_width + x) ∧
    t.component i c = t.pixel i + c * t.m_channel_size ∧
    t.componentXY x y c = t.pixelXY x y + c * t.m_channel_size ∧
    (t.componentAssert i c ↔ t.pixelAssert i) ∧
    (t.componentAssert i c ↔ t.componentAssert i c') :=
  ⟨(Nat.zero_add _).symm, rfl, rfl, rfl, Iff.rfl, Iff.rfl⟩

/-- C4: `set_pixel(i)` presents to the converter exactly the first
`channel_count` source elements with stride 1 and destination `pixel(i)`
with stride 1 (writing exactly `pixel_size` packed bytes); `get_pixel(i)`
decodes exactly `channel_count` channels, in channel order, from the byte
range `[pixel(i), pixel(i) + pixel_size)`; `set_component`/`get_component`
perform the same conversion restricted to the single `channel_size`-byte
range of channel `c`. -/
theorem C4_converter_ranges {T : Type} [Inhabited T] (conv : PixelConverter T)
    (t : Tile) (i c : Nat) (comps : List T) (v : T) (hwf : t.WellFormed)
    (hcs : 0 < t.m_channel_size)
    (hlen : t.m_channel_count ≤ comps.length) :
    ((comps.take t.m_channel_count).length = t.m_channel_count) ∧
    ((t.set_pixel conv i comps).m_pixel_array =
      writeBytes t.m_pixel_array (t.pixel i)
        (((comps.take t.m_channel_count).map
          (conv.encode t.m_pixel_format)).flatten)) ∧
    ((((comps.take t.m_channel_count).map
        (conv.encode t.m_pixel_format)).flatten).length = t.m_pixel_size) ∧
    (t.get_pixel conv i = (List.range t.m_channel_count).map
      (fun k => conv.decode t.m_pixel_format
        (readBytes t.m_pixel_array (t.pixel i + k * t.m_channel_size)
          t.m_channel_size))) ∧
    ((t.get_pixel conv i).length = t.m_channel_count) ∧
    ((t.set_component conv i c v).m_pixel_array =
      writeBytes t.m_pixel_array (t.component i c)
        (conv.encode t.m_pixel_format v)) ∧
    ((conv.encode t.m_pixel_format v).length = t.m_channel_size) ∧
    (t.get_component conv i c = conv.decode t.m_pixel_format
      (readBytes t.m_pixel_array (t.component i c) t.m_channel_size)) := by
  obtain ⟨h1, h2, h3, h4⟩ := hwf
  have hcount :
      t.m_pixel_size / t.m_pixel_format.channelSize = t.m_channel_count := by
    rw [← h2, h3]
    exact Nat.mul_div_cancel _ hcs
  have hone : t.m_channel_size / t.m_pixel_format.channelSize = 1 := by
    rw [h2]
    exact Nat.div_self (by rw [← h2]; exact hcs)
  have hget : t.get_pixel conv i = (List.range t.m_channel_count).map
      (fun k => conv.decode t.m_pixel_format
        (readBytes t.m_pixel_array (t.pixel i + k * t.m_channel_size)
          t.m_channel_size)) := by
    show convert_from_format conv t.m_pixel_format t.m_pixel_array
      (t.pixel i) t.m_pixel_size = _
    unfold convert_from_format
    rw [hcount]
    simp only [← h2]
  refine ⟨?_, rfl, Tile.enc_length conv t comps h2 h3 hlen, hget, ?_, ?_, ?_, ?_⟩
  · rw [List.length_take]
    exact Nat.min_eq_left hlen
  · rw [hget, List.length_map, List.length_range]
  · show writeBytes t.m_pixel_array (t.component i c)
      (([v].map (conv.encode t.m_pixel_format)).flatten) = _
    simp
  · rw [conv.encode_length]
    exact h2.symm
  · show (convert_from_format conv t.m_pixel_format t.m_pixel_array
      (t.component i c) t.m_channel_size).headD default = _
    unfold convert_from_format
    rw [hone]
    simp only [List.range_succ, List.range_zero, List.nil_append,
      List.map_cons, List.map_nil, List.headD_cons,
      Nat.zero_mul, Nat.add_zero, ← h2]

/-- Witness for C4 at a concrete 2 x 3 tile with 3 one-byte channels,
pixel 1, channel 2, components `(1, 2, 3, 4)` and value `9`. -/
theorem C4_converter_ranges_witness :
    (t23.WellFormed ∧ 0 < t23.m_channel_size ∧
      t23.m_channel_count ≤ ([1, 2, 3, 4] : List Nat).length) ∧
    ((([1, 2, 3, 4] : List Nat).take t23.m_channel_count).length =
        t23.m_channel_count ∧
      ((t23.set_pixel natConv 1 [1, 2, 3, 4]).m_pixel_array =
        writeBytes t23.m_pixel_array (t23.pixel 1)
          (((([1, 2, 3, 4] : List Nat).take t23.m_channel_count).map
            (natConv.encode t23.m_pixel_format)).flatten)) ∧
      (((([1, 2, 3, 4] : List Nat).take t23.m_channel_count).map
          (natConv.encode t23.m_pixel_format)).flatten).length =
        t23.m_pixel_size ∧
      (t23.get_pixel natConv 1 = (List.range t23.m_channel_count).map
        (fun k => natConv.decode t23.m_pixel_format
          (readBytes t23.m_pixel_array (t23.pixel 1 + k * t23.m_channel_size)
            t23.m_channel_size))) ∧
      ((t23.get_pixel natConv 1).length = t23.m_channel_count) ∧
      ((t23.set_component natConv 1 2 9).m_pixel_array =
        writeBytes t23.m_pixel_array (t23.component 1 2)
          (natConv.encode t23.m_pixel_format 9)) ∧
      ((natConv.encode t23.m_pixel_format 9).length = t23.m_channel_size) ∧
      (t23.get_component natConv 1 2 = natConv.decode t23.m_pixel_format
        (readBytes t23.m_pixel_array (t23.component 1 2)
          t23.m_channel_size))) :=
  ⟨⟨⟨rfl, rfl, rfl, rfl⟩, by decide, by decide⟩,
    C4_converter_ranges natConv t23 1 2 [1, 2, 3, 4] 9 ⟨rfl, rfl, rfl, rfl⟩
      (by decide) (by decide)⟩

/-- C5: for every valid `(i, c)` and every value the external converter
round-trips at the tile's format, `set_component(i, c, v)` followed by
`get_component(i, c)` returns `v`. -/
theorem C5_component_roundtrip {T : Type} [Inhabited T]
    (conv : PixelConverter T) (t : Tile) (i c : Nat) (v : T)
    (hwf : t.WellFormed) (hcs : 0 < t.m_channel_size)
    (hi : i < t.m_pixel_count) (hc : c < t.m_channel_count)
    (hrt : conv.decode t.m_pixel_format (conv.encode t.m_pixel_format v) = v) :
    (t.set_component conv i c v).get_component conv i c = v := by
  obtain ⟨h1, h2, h3, h4⟩ := hwf
  have hone : t.m_channel_size / t.m_pixel_format.channelSize = 1 := by
    rw [h2]
    exact Nat.div_self (by rw [← h2]; exact hcs)
  have hB : (t.set_component conv i c v).m_pixel_array =
      writeBytes t.m_pixel_array (t.component i c)
        (conv.encode t.m_pixel_format v) := by
    show writeBytes t.m_pixel_array (t.component i c)
      (([v].map (conv.encode t.m_pixel_format)).flatten) = _
    simp
  show (convert_from_format conv t.m_pixel_format
    ((t.set_component conv i c v).m_pixel_array)
    (t.component i c) t.m_channel_size).headD default = v
  unfold convert_from_format
  rw [hone]
  simp only [List.range_succ, List.range_zero, List.nil_append,
    List.map_cons, List.map_nil, List.headD_cons, Nat.zero_mul, Nat.add_zero]
  rw [hB]
  rw [readBytes_writeBytes_self _ _ _ _ (conv.encode_length _ _)]
  exact hrt

/-- Witness for C5 at a concrete 2 x 3 tile with 3 one-byte channels,
pixel 4, channel 1, value `7`. -/
theorem C5_component_roundtrip_witness :
    (t23.WellFormed ∧ 0 < t23.m_channel_size ∧ 4 < t23.m_pixel_count ∧
      1 < t23.m_channel_count ∧
      natConv.decode t23.m_pixel_format
        (natConv.encode t23.m_pixel_format 7) = 7) ∧
    (t23.set_component natConv 4 1 7).get_component natConv 4 1 = 7 :=
  ⟨⟨⟨rfl, rfl, rfl, rfl⟩, by decide, by decide, by decide, by decide⟩,
    C5_component_roundtrip natConv t23 4 1 7 ⟨rfl, rfl, rfl, rfl⟩
      (by decide) (by decide) (by decide) (by decide)⟩

/-- Pointwise contents of the destination buffer after a format-converting
`copy` (the two pixel formats differ). -/
theorem copy_convert_buf_eq (fc : FormatConverter) (t rhs : Tile)
    (hwf : t.WellFormed) (hne : t.m_pixel_format ≠ rhs.m_pixel_format)
    (p : Nat) :
    (t.copy fc rhs).m_pixel_array p =
      if p < t.m_pixel_count * t.m_pixel_size
      then (((List.range t.m_channel_count).map
        (fun c => fc.convChannel rhs.m_pixel_format t.m_pixel_format
          (readBytes rhs.m_pixel_array
            (p / t.m_pixel_size * rhs.m_pixel_size + c * rhs.m_channel_size)
            rhs.m_channel_size))).flatten).getD (p % t.m_pixel_size) 0
      else t.m_pixel_array p := by
  obtain ⟨h1, h2, h3, h4⟩ := hwf
  have hg : ∀ i, (((List.range t.m_channel_count).map
      (fun c => fc.convChannel rhs.m_pixel_format t.m_pixel_format
        (readBytes rhs.m_pixel_array
          (i * rhs.m_pixel_size + c * rhs.m_channel_size)
          rhs.m_channel_size))).flatten).length = t.m_pixel_size := by
    intro i
    rw [flatten_uniform_length _ t.m_channel_size (by
      intro a ha
      simp only [List.mem_map] at ha
      obtain ⟨cnum, hcnum, rfl⟩ := ha
      rw [fc.conv_length]
      exact h2.symm)]
    rw [List.length_map, List.length_range]
    exact h3.symm
  have key := foldl_writeBytes_stride
    (fun i => ((List.range t.m_channel_count).map
      (fun c => fc.convChannel rhs.m_pixel_format t.m_pixel_format
        (readBytes rhs.m_pixel_array
          (i * rhs.m_pixel_size + c * rhs.m_channel_size)
          rhs.m_channel_size))).flatten)
    t.m_pixel_size hg t.m_pixel_count t.m_pixel_array p
  unfold Tile.copy
  rw [if_neg hne]
  exact key

/-- C6: `copy(rhs)` preserves the destination's geometry; with equal pixel
formats it is a raw byte copy (every byte of the destination's pixel array is
the source's); with different formats every channel of every pixel of the
destination holds the source channel's bytes converted from `rhs`'s format
to the destination's format. -/
theorem C6_copy (fc : FormatConverter) (t rhs : Tile) (hwf : t.WellFormed)
    (hwfr : rhs.WellFormed) (hW : rhs.m_width = t.m_width)
    (hH : rhs.m_height = t.m_height)
    (hC : rhs.m_channel_count = t.m_channel_count) :
    Tile.sameGeometry (t.copy fc rhs) t ∧
    (t.m_pixel_format = rhs.m_pixel_format →
      ∀ p, p < t.m_array_size →
        (t.copy fc rhs).m_pixel_array p = rhs.m_pixel_array p) ∧
    (t.m_pixel_format ≠ rhs.m_pixel_format →
      ∀ i cnum, i < t.m_pixel_count → cnum < t.m_channel_count →
        readBytes (t.copy fc rhs).m_pixel_array
          (t.component i cnum) t.m_channel_size =
        fc.convChannel rhs.m_pixel_format t.m_pixel_format
          (readBytes rhs.m_pixel_array (rhs.component i cnum)
            rhs.m_channel_size)) := by
  obtain ⟨h1, h2, h3, h4⟩ := hwf
  refine ⟨Tile.copy_geom fc t rhs, ?_, ?_⟩
  · intro heq p hp
    have hbuf : (t.copy fc rhs).m_pixel_array =
        writeBytes t.m_pixel_array 0
          (readBytes rhs.m_pixel_array 0 t.m_array_size) := by
      unfold Tile.copy
      rw [if_pos heq]
    rw [hbuf, writeBytes_in _ _ _ _ (Nat.zero_le p)
      (by rw [readBytes_length]; omega)]
    rw [Nat.sub_zero, readBytes_getD _ _ _ _ hp, Nat.zero_add]
  · intro hne i cnum hi hcnum
    apply List.ext_getElem
    · rw [readBytes_length, fc.conv_length]
      exact h2
    · intro j hj1 hj2
      have hj : j < t.m_channel_size := by
        rw [readBytes_length] at hj1
        exact hj1
      simp only [readBytes, List.getElem_map, List.getElem_range]
      rw [copy_convert_buf_eq fc t rhs ⟨h1, h2, h3, h4⟩ hne]
      have hm : cnum * t.m_channel_size + j < t.m_pixel_size := by
        have hstep : (cnum + 1) * t.m_channel_size ≤
            t.m_channel_count * t.m_channel_size :=
          Nat.mul_le_mul_right _ (by omega)
        rw [Nat.add_mul, Nat.one_mul] at hstep
        rw [h3]
        omega
      have hco : t.component i cnum + j =
          i * t.m_pixel_size + (cnum * t.m_channel_size + j) := by
        unfold Tile.component Tile.pixel
        omega
      rw [hco]
      have hstep : (i + 1) * t.m_pixel_size ≤
          t.m_pixel_count * t.m_pixel_size :=
        Nat.mul_le_mul_right _ (by omega)
      rw [Nat.add_mul, Nat.one_mul] at hstep
      rw [if_pos (by omega)]
      have hdiv : (i * t.m_pixel_size + (cnum * t.m_channel_size + j)) /
          t.m_pixel_size = i :=
        Nat.div_eq_of_lt_le (by omega)
          (by rw [Nat.add_mul, Nat.one_mul]; omega)
      have hmod : (i * t.m_pixel_size + (cnum * t.m_channel_size + j)) %
          t.m_pixel_size = cnum * t.m_channel_size + j := by
        rw [Nat.add_comm, Nat.add_mul_mod_self_right]
        exact Nat.mod_eq_of_lt hm
      rw [hdiv, hmod]
      rw [flatten_uniform_getD _ t.m_channel_size (by
          intro a ha
          simp only [List.mem_map] at ha
          obtain ⟨c2, hc2, rfl⟩ := ha
          rw [fc.conv_length]
          exact h2.symm)
        cnum j (by rw [List.length_map, List.length_range]; omega) hj]
      have hclen : cnum < ((List.range t.m_channel_count).map
          (fun c => fc.convChannel rhs.m_pixel_format t.m_pixel_format
            (readBytes rhs.m_pixel_array
              (i * rhs.m_pixel_size + c * rhs.m_channel_size)
              rhs.m_channel_size))).length := by
        rw [List.length_map, List.length_range]
        omega
      rw [List.getD_eq_getElem _ _ hclen]
      simp only [List.getElem_map, List.getElem_range]
      exact List.getD_eq_getElem _ _
        (by rw [fc.conv_length, ← h2]; exact hj)

/-- Witness for C6: copying between two concrete 2 x 3 three-channel tiles,
once with equal formats (one byte per channel) and once converting from a
four-byte format to the one-byte format. -/
theorem C6_copy_witness :
    (t23.WellFormed ∧ t23b.WellFormed ∧ s23.WellFormed ∧
      t23b.m_width = t23.m_width ∧ t23b.m_height = t23.m_height ∧
      t23b.m_channel_count = t23.m_channel_count ∧
      s23.m_width = t23.m_width ∧ s23.m_height = t23.m_height ∧
      s23.m_channel_count = t23.m_channel_count) ∧
    (Tile.sameGeometry (t23.copy natFC t23b) t23 ∧
      (t23.m_pixel_format = t23b.m_pixel_format →
        ∀ p, p < t23.m_array_size →
          (t23.copy natFC t23b).m_pixel_array p = t23b.m_pixel_array p) ∧
      (t23.m_pixel_format ≠ t23b.m_pixel_format →
        ∀ i cnum, i < t23.m_pixel_count → cnum < t23.m_channel_count →
          readBytes (t23.copy natFC t23b).m_pixel_array
            (t23.component i cnum) t23.m_channel_size =
          natFC.convChannel t23b.m_pixel_format t23.m_pixel_format
            (readBytes t23b.m_pixel_array (t23b.component i cnum)
              t23b.m_channel_size))) ∧
    (Tile.sameGeometry (t23.copy natFC s23) t23 ∧
      (t23.m_pixel_format = s23.m_pixel_format →
        ∀ p, p < t23.m_array_size →
          (t23.copy natFC s23).m_pixel_array p = s23.m_pixel_array p) ∧
      (t23.m_pixel_format ≠ s23.m_pixel_format →
        ∀ i cnum, i < t23.m_pixel_count → cnum < t23.m_channel_count →
          readBytes (t23.copy natFC s23).m_pixel_array
            (t23.component i cnum) t23.m_channel_size =
          natFC.convChannel s23.m_pixel_format t23.m_pixel_format
            (readBytes s23.m_pixel_array (s23.component i cnum)
              s23.m_channel_size))) :=
  ⟨⟨⟨rfl, rfl, rfl, rfl⟩, ⟨rfl, rfl, rfl, rfl⟩, ⟨rfl, rfl, rfl, rfl⟩,
      rfl, rfl, rfl, rfl, rfl, rfl⟩,
    C6_copy natFC t23 t23b ⟨rfl, rfl, rfl, rfl⟩ ⟨rfl, rfl, rfl, rfl⟩
      rfl rfl rfl,
    C6_copy natFC t23 s23 ⟨rfl, rfl, rfl, rfl⟩ ⟨rfl, rfl, rfl, rfl⟩
      rfl rfl rfl⟩

/-- C7: each aggregate-typed (`Color`) overload requires, via a debug-only
assertion, that `sizeof(Color)` equal `channel_count` times the element
size — equivalently (for a positive element size) that the aggregate have
exactly `channel_count` elements — and under that precondition forwards
exactly to the array overload on the address of the aggregate's first
element. -/
theorem C7_color_overloads {T : Type} (conv : PixelConverter T) (t : Tile)
    (i : Nat) (cagg : ColorAgg T) (elemSize : Nat) (hes : 0 < elemSize) :
    (t.colorSizeAssert elemSize cagg ↔
      cagg.elems.length = t.m_channel_count) ∧
    (t.set_pixel_color conv i cagg = t.set_pixel conv i cagg.elems) ∧
    (t.get_pixel_color conv i = ⟨t.get_pixel conv i⟩) ∧
    (t.clear_color conv cagg = t.clear conv cagg.elems) := by
  refine ⟨?_, rfl, rfl, rfl⟩
  unfold Tile.colorSizeAssert sizeofColor
  constructor
  · intro hmul
    exact Nat.eq_of_mul_eq_mul_right hes hmul
  · intro hlen
    rw [hlen]

/-- Witness for C7 at a concrete 2 x 3 tile, the aggregate `(5, 6, 7)` and
element size 8. -/
theorem C7_color_overloads_witness :
    0 < 8 ∧
    ((t23.colorSizeAssert 8 ⟨[5, 6, 7]⟩ ↔
        (ColorAgg.elems ⟨[5, 6, 7]⟩ : List Nat).length =
          t23.m_channel_count) ∧
      (t23.set_pixel_color natConv 2 ⟨[5, 6, 7]⟩ =
        t23.set_pixel natConv 2 (ColorAgg.elems ⟨[5, 6, 7]⟩)) ∧
      (t23.get_pixel_color natConv 2 = ⟨t23.get_pixel natConv 2⟩) ∧
      (t23.clear_color natConv ⟨[5, 6, 7]⟩ =
        t23.clear natConv (ColorAgg.elems ⟨[5, 6, 7]⟩))) :=
  ⟨by decide, C7_color_overloads natConv t23 2 ⟨[5, 6, 7]⟩ 8 (by decide)⟩

/-- C8: `get_memory_size()` returns the fixed header size plus `array_size`
when the tile owns its storage, and the fixed header size alone when it
borrows caller-supplied storage. -/
theorem C8_memory_size (headerSize : Nat) (t : Tile) :
    (t.m_own_storage = true →
      t.get_memory_size headerSize = headerSize + t.get_size) ∧
    (t.m_own_storage = false →
      t.get_memory_size headerSize = headerSize) := by
  constructor
  · intro h
    simp [Tile.get_memory_size, Tile.get_size, h]
  · intro h
    simp [Tile.get_memory_size, h]

/-- Witness for C8 with header size 80, at a concrete owning tile and a
concrete borrowing tile. -/
theorem C8_memory_size_witness :
    (t23.m_own_storage = true ∧
      t23.get_memory_size 80 = 80 + t23.get_size) ∧
    (t23b.m_own_storage = false ∧ t23b.get_memory_size 80 = 80) :=
  ⟨⟨rfl, (C8_memory_size 80 t23).1 rfl⟩,
    ⟨rfl, (C8_memory_size 80 t23b).2 rfl⟩⟩

/-- C9: a tile constructed over caller-supplied storage never owns it, stays
a borrower after any sequence of mutating operations, never resizes the
buffer, and its destruction frees nothing — the caller's buffer survives
with the tile's final contents; a tile that allocated its own storage owns
it and destruction frees it. -/
theorem C9_ownership {T : Type} (conv : PixelConverter T)
    (fc : FormatConverter) (w h cc : Nat) (pf : PixelFormat)
    (stor undef : Buf) (ops ops2 : List (TileOp T)) :
    ((Tile.create w h cc pf (some stor) undef).m_own_storage = false) ∧
    (((Tile.create w h cc pf (some stor) undef).applyOps conv fc
        ops).m_own_storage = false) ∧
    (((Tile.create w h cc pf (some stor) undef).applyOps conv fc
        ops).destroy.freed_pixel_array = false) ∧
    (((Tile.create w h cc pf (some stor) undef).applyOps conv fc
        ops).destroy.surviving =
      some ((Tile.create w h cc pf (some stor) undef).applyOps conv fc
        ops).m_pixel_array) ∧
    (((Tile.create w h cc pf (some stor) undef).applyOps conv fc
        ops).m_array_size =
      (Tile.create w h cc pf (some stor) undef).m_array_size) ∧
    ((Tile.create w h cc pf none undef).m_own_storage = true) ∧
    (((Tile.create w h cc pf none undef).applyOps conv fc
        ops2).destroy.freed_pixel_array = true) := by
  have hgb := Tile.applyOps_geom conv fc ops
    (Tile.create w h cc pf (some stor) undef)
  have hgo := Tile.applyOps_geom conv fc ops2
    (Tile.create w h cc pf none undef)
  have hownb : ((Tile.create w h cc pf (some stor) undef).applyOps conv fc
      ops).m_own_storage = false := hgb.2.2.2.2.2.2.2.2
  have howno : ((Tile.create w h cc pf none undef).applyOps conv fc
      ops2).m_own_storage = true := hgo.2.2.2.2.2.2.2.2
  refine ⟨rfl, hownb, hownb, ?_, hgb.2.2.2.2.2.2.2.1, rfl, howno⟩
  show (if ((Tile.create w h cc pf (some stor) undef).applyOps conv fc
      ops).m_own_storage then none
    else some ((Tile.create w h cc pf (some stor) undef).applyOps conv fc
      ops).m_pixel_array) = _
  rw [hownb]
  rfl

/-- C10: `set_component(i, c, v)` leaves every byte outside the
`channel_size`-byte range at offset `i * pixel_size + c * channel_size`
unchanged, and changes no geometry field, no size field, and not the
ownership flag. -/
theorem C10_set_component_frame {T : Type} (conv : PixelConverter T)
    (t : Tile) (i c : Nat) (v : T) (p : Nat) (hwf : t.WellFormed)
    (hout : p < i * t.m_pixel_size + c * t.m_channel_size ∨
      i * t.m_pixel_size + c * t.m_channel_size + t.m_channel_size ≤ p) :
    (t.set_component conv i c v).m_pixel_array p = t.m_pixel_array p ∧
    Tile.sameGeometry (t.set_component conv i c v) t := by
  obtain ⟨h1, h2, h3, h4⟩ := hwf
  refine ⟨?_, Tile.set_component_geom conv t i c v⟩
  have hB : (t.set_component conv i c v).m_pixel_array =
      writeBytes t.m_pixel_array (t.component i c)
        (conv.encode t.m_pixel_format v) := by
    show writeBytes t.m_pixel_array (t.component i c)
      (([v].map (conv.encode t.m_pixel_format)).flatten) = _
    simp
  rw [hB]
  apply writeBytes_out
  rw [conv.encode_length, ← h2]
  unfold Tile.component Tile.pixel
  omega

/-- Witness for C10 at a concrete 2 x 3 tile, pixel 2, channel 1, value 9,
and the untouched byte offset 0. -/
theorem C10_set_component_frame_witness :
    (t23.WellFormed ∧
      (0 < 2 * t23.m_pixel_size + 1 * t23.m_channel_size ∨
        2 * t23.m_pixel_size + 1 * t23.m_channel_size +
          t23.m_channel_size ≤ 0)) ∧
    ((t23.set_component natConv 2 1 9).m_pixel_array 0 =
        t23.m_pixel_array 0 ∧
      Tile.sameGeometry (t23.set_component natConv 2 1 9) t23) :=
  ⟨⟨⟨rfl, rfl, rfl, rfl⟩, Or.inl (by decide)⟩,
    C10_set_component_frame natConv t23 2 1 9 0 ⟨rfl, rfl, rfl, rfl⟩
      (Or.inl (by decide))⟩

end Appleseed
